import Mathlib

/-!
Verification of the pseudo-positioner motion-coordination engine
(`ophyd/pseudopos.py`): the position-tuple calling convention, limit
validation, the real-axis position cache, the concurrent and sequential
move-scheduling machines, stop semantics, and single-axis moves.

Scalar positions are modelled as `Int`.  Real and pseudo axes are
identified by their index (`Nat`) in the declared axis order.  Errors
raised by the Python code become explicit error values of inductive
types.
-/

namespace Ophyd

/-! ## Position Tuple Algebra: `to_position_tuple`

`to_position_tuple(cls, *args, **kwargs)` converts user-specified
arguments to a position namedtuple plus leftover keyword arguments.
`α` is the universe of Python values; `asSeq v = some vs` models
`isinstance(v, (cls, Sequence))` holding with element list `vs`
(a `cls` instance is itself a sequence of exactly the field arity).
Keyword arguments are an association list with distinct keys (a dict).
-/

/-- Errors raised by `to_position_tuple`: `TypeError` on an invalid or
empty namedtuple class, `ValueError` otherwise. -/
inductive TupErr where
  | invalidTuple : TupErr
  | tooManyArgs : TupErr
  | badAggArity : TupErr
  | countMismatch (got expected : Nat) : TupErr
  | usage : TupErr
  | missingFields (fs : List String) : TupErr
  deriving Repr, DecidableEq

/-- Embedding of `to_position_tuple` (pseudopos.py lines 195-286).
Returns the field values of the constructed position record, in field
order, together with the keyword arguments handed back to the caller. -/
def to_position_tuple {α : Type} (asSeq : α → Option (List α))
    (fields : List String) (args : List α) (kwargs : List (String × α)) :
    Except TupErr (List α × List (String × α)) :=
  if fields.isEmpty then .error .invalidTuple
  else
    match args with
    | a :: rest =>
      match asSeq a with
      | some vs =>
        -- position is in the first positional argument
        if !rest.isEmpty then .error .tooManyArgs
        else if vs.length = fields.length then .ok (vs, kwargs)
        else .error .badAggArity
      | none =>
        if args.length = fields.length then .ok (args, kwargs)
        else .error (.countMismatch args.length fields.length)
    | [] =>
      if kwargs.isEmpty then .error .usage
      else
        let missing := fields.filter (fun f => (kwargs.lookup f).isNone)
        if !missing.isEmpty then .error (.missingFields missing)
        else
          let position := fields.filterMap (fun f => kwargs.lookup f)
          let other := kwargs.filter (fun kv => !fields.contains kv.1)
          .ok (position, other)

/-- Looking a field up in the zipped field/value list prepended to
unrelated options recovers that field's value, provided field names are
distinct and none of the extra options uses a field name. -/
theorem lookup_zip_fields {α : Type} (fields : List String) (vs : List α)
    (kwargs : List (String × α)) (hnd : fields.Nodup)
    (hlen : vs.length = fields.length)
    (hdisj : ∀ f ∈ fields, kwargs.lookup f = none) :
    fields.filterMap (fun f => (fields.zip vs ++ kwargs).lookup f) = vs := by
  induction fields generalizing vs kwargs with
  | nil =>
    cases vs with
    | nil => simp
    | cons v vs => simp at hlen
  | cons f fs ih =>
    cases vs with
    | nil => simp at hlen
    | cons v vs =>
      simp only [List.zip_cons_cons, List.cons_append, List.filterMap_cons]
      have hf : (((f, v) :: (fs.zip vs ++ kwargs)).lookup f) = some v := by
        simp [List.lookup]
      rw [hf]
      simp only [Option.toList]
      have hrest : fs.filterMap (fun g => (((f, v) :: (fs.zip vs ++ kwargs)).lookup g)) =
          fs.filterMap (fun g => ((fs.zip vs ++ kwargs).lookup g)) := by
        apply List.filterMap_congr
        intro g hg
        have hne : g ≠ f := by
          rintro rfl
          exact (List.nodup_cons.mp hnd).1 hg
        have hb : (g == f) = false := beq_eq_false_iff_ne.mpr hne
        simp [List.lookup, hb]
      rw [hrest, ih vs kwargs (List.nodup_cons.mp hnd).2 (by simpa using hlen)
        (fun g hg => hdisj g (List.mem_cons_of_mem _ hg))]

/-- A key that matches no entry of an association list looks up to `none`. -/
theorem lookup_eq_none_of_fresh {α : Type} (l : List (String × α)) (f : String)
    (h : ∀ kv ∈ l, kv.1 ≠ f) : l.lookup f = none := by
  induction l with
  | nil => rfl
  | cons kv rest ih =>
    have hb : (f == kv.1) = false :=
      beq_eq_false_iff_ne.mpr (fun he => h kv (List.mem_cons_self kv rest) he.symm)
    simp only [List.lookup, hb]
    exact ih (fun kv hkv => h kv (List.mem_cons_of_mem _ hkv))

/-- Every declared field can be looked up in the zipped field/value list
(prepended to anything), when the value list has matching length. -/
theorem lookup_zip_isSome {α : Type} (fields : List String) (vs : List α)
    (kwargs : List (String × α)) (f : String) (hf : f ∈ fields)
    (hlen : vs.length = fields.length) :
    ((fields.zip vs ++ kwargs).lookup f).isSome = true := by
  induction fields generalizing vs with
  | nil => simp at hf
  | cons g fs ih =>
    cases vs with
    | nil => simp at hlen
    | cons v vs =>
      simp only [List.zip_cons_cons, List.cons_append, List.lookup]
      rcases eq_or_ne f g with rfl | hne
      · simp
      · have hb : (f == g) = false := beq_eq_false_iff_ne.mpr hne
        simp only [hb]
        exact ih vs ((List.mem_cons.mp hf).resolve_left hne) (by simpa using hlen)

/-- Claim C5: the position-tuple parser returns a field-for-field
identical Position Record and the same unconsumed options whether the
position is supplied as N positional scalars in declared order, as a
single sequence/aggregate first positional argument, or as named
options for every field (plus unrelated options). -/
theorem position_tuple_calling_convention {α : Type} (asSeq : α → Option (List α))
    (fields : List String) (vs : List α) (kwargs : List (String × α)) (agg : α)
    (hne : fields ≠ []) (hnd : fields.Nodup) (hlen : vs.length = fields.length)
    (hdisj : ∀ kv ∈ kwargs, kv.1 ∉ fields)
    (hagg : asSeq agg = some vs)
    (hscalar : ∀ a, vs.head? = some a → asSeq a = none) :
    to_position_tuple asSeq fields vs kwargs = .ok (vs, kwargs) ∧
    to_position_tuple asSeq fields [agg] kwargs = .ok (vs, kwargs) ∧
    to_position_tuple asSeq fields [] (fields.zip vs ++ kwargs) = .ok (vs, kwargs) := by
  have hfe : fields.isEmpty = false := by
    simpa [List.isEmpty_iff] using hne
  have hvs : vs ≠ [] := by
    intro h
    rw [h] at hlen
    exact hne (List.length_eq_zero.mp hlen.symm)
  refine ⟨?_, ?_, ?_⟩
  · -- N positional scalars in declared order
    cases vs with
    | nil => exact absurd rfl hvs
    | cons v vrest =>
      have hv : asSeq v = none := hscalar v rfl
      simp [to_position_tuple, hfe, hv, hlen]
  · -- a single aggregate positional argument
    simp [to_position_tuple, hfe, hagg, hlen]
  · -- named options for every field, plus unrelated options
    have hkwne : (fields.zip vs ++ kwargs).isEmpty = false := by
      cases fields with
      | nil => exact absurd rfl hne
      | cons f fs =>
        cases vs with
        | nil => simp at hlen
        | cons v vrest => simp
    have hlook : ∀ f ∈ fields, kwargs.lookup f = none := fun f hf =>
      lookup_eq_none_of_fresh kwargs f (fun kv hkv he => hdisj kv hkv (he ▸ hf))
    have hmissing : fields.filter
        (fun f => ((fields.zip vs ++ kwargs).lookup f).isNone) = [] := by
      rw [List.filter_eq_nil_iff]
      intro f hf
      have h := lookup_zip_isSome fields vs kwargs f hf hlen
      intro hN
      rw [Option.isNone_iff_eq_none] at hN
      rw [hN] at h
      simp at h
    have hpos : fields.filterMap (fun f => (fields.zip vs ++ kwargs).lookup f) = vs :=
      lookup_zip_fields fields vs kwargs hnd hlen hlook
    have h1 : (fields.zip vs).filter (fun kv => !decide (kv.1 ∈ fields)) = [] := by
      rw [List.filter_eq_nil_iff]
      intro kv hkv
      simp [(List.of_mem_zip hkv).1]
    have h2 : kwargs.filter (fun kv => !decide (kv.1 ∈ fields)) = kwargs := by
      rw [List.filter_eq_self]
      intro kv hkv
      simp [hdisj kv hkv]
    simp [to_position_tuple, hfe, hkwne, hmissing, hpos, h1, h2]

/-- Witness for C5 at a concrete instance: fields `px, py`, scalars
`1, 2`, aggregate value `99` (a two-element sequence), and one
unrelated option. -/
theorem position_tuple_calling_convention_witness :
    to_position_tuple (fun n : Nat => if n = 99 then some [1, 2] else none)
        ["px", "py"] [1, 2] [("a", 4)] = .ok ([1, 2], [("a", 4)]) ∧
    to_position_tuple (fun n : Nat => if n = 99 then some [1, 2] else none)
        ["px", "py"] [99] [("a", 4)] = .ok ([1, 2], [("a", 4)]) ∧
    to_position_tuple (fun n : Nat => if n = 99 then some [1, 2] else none)
        ["px", "py"] [] (["px", "py"].zip [1, 2] ++ [("a", 4)]) =
      .ok ([1, 2], [("a", 4)]) :=
  position_tuple_calling_convention
    (fun n : Nat => if n = 99 then some [1, 2] else none)
    ["px", "py"] [1, 2] [("a", 4)] 99
    (by decide) (by decide) (by decide) (by decide) (by decide)
    (fun a ha => by
      have h1 : 1 = a := by simpa using ha
      subst h1
      decide)

/-! ## Validation: `PseudoPositioner.check_value`

`check_value` coerces its argument to the canonical `PseudoPosition`
shape, checks each pseudo axis's `(low, high)` limit pair, computes
`forward(pseudo_pos)` and delegates each real-axis scalar to that real
axis's own `check_value`.  A real axis's `check_value` is modelled as a
function returning `some e` on failure (`e` the propagated error) and
`none` on success.
-/

/-- Errors surfaced by `PseudoPositioner.check_value`: the coercion
failure, a pseudo-single limit violation, or a real positioner's own
failure (propagated unchanged). -/
inductive CheckErr (E : Type) where
  | notAllRequired : CheckErr E
  | outOfRange (limits : Int × Int) (pos : Int) : CheckErr E
  | realFailure (e : E) : CheckErr E
  deriving DecidableEq

/-- The per-pseudo-axis limit test of `check_value` (pseudopos.py lines
511-516): an axis with limit pair `(low, high)` rejects a candidate `p`
iff `high > low` and not `low ≤ p ≤ high`. -/
def pseudoViolation (lp : (Int × Int) × Int) : Bool :=
  lp.1.2 > lp.1.1 && !(lp.1.1 ≤ lp.2 && lp.2 ≤ lp.1.2)

/-- Embedding of `PseudoPositioner.check_value` (pseudopos.py lines
494-520).  `limits` holds each pseudo axis's limit pair in declared
order; `fwd` is the subclass-supplied forward transform; `realChecks`
holds each real axis's own `check_value`. -/
def check_value {E : Type} (limits : List (Int × Int)) (fwd : List Int → List Int)
    (realChecks : List (Int → Option E)) (pseudo_pos : List Int) :
    Except (CheckErr E) Unit :=
  if pseudo_pos.length ≠ limits.length then .error .notAllRequired
  else
    match (limits.zip pseudo_pos).find? pseudoViolation with
    | some lp => .error (.outOfRange lp.1 lp.2)
    | none =>
      let real_pos := fwd pseudo_pos
      match (realChecks.zip real_pos).findSome? (fun cp => cp.1 cp.2) with
      | some e => .error (.realFailure e)
      | none => .ok ()

/-- Claim C6: `check_value` fails with an out-of-range condition iff
some pseudo axis with `high > low` sees a candidate scalar outside
`[low, high]` (an axis with `high ≤ low` is unbounded); once the
per-pseudo-axis checks pass, every computed real-axis scalar is handed
to that real axis's own `check_value` and its failure propagates
unchanged; a coercion arity mismatch fails up front. -/
theorem check_value_spec {E : Type} (limits : List (Int × Int))
    (fwd : List Int → List Int) (realChecks : List (Int → Option E))
    (pos : List Int) :
    (pos.length ≠ limits.length →
      check_value limits fwd realChecks pos = .error .notAllRequired) ∧
    (pos.length = limits.length →
      ((∃ l p, check_value limits fwd realChecks pos = .error (.outOfRange l p)) ↔
        ∃ lp ∈ limits.zip pos, lp.1.1 < lp.1.2 ∧ (lp.2 < lp.1.1 ∨ lp.1.2 < lp.2)) ∧
      (∀ e, check_value limits fwd realChecks pos = .error (.realFailure e) ↔
        (∀ lp ∈ limits.zip pos, ¬(lp.1.1 < lp.1.2 ∧ (lp.2 < lp.1.1 ∨ lp.1.2 < lp.2))) ∧
        (realChecks.zip (fwd pos)).findSome? (fun cp => cp.1 cp.2) = some e) ∧
      (check_value limits fwd realChecks pos = .ok () ↔
        (∀ lp ∈ limits.zip pos, ¬(lp.1.1 < lp.1.2 ∧ (lp.2 < lp.1.1 ∨ lp.1.2 < lp.2))) ∧
        ∀ cp ∈ realChecks.zip (fwd pos), cp.1 cp.2 = none)) := by
  have hviol : ∀ lp : (Int × Int) × Int,
      pseudoViolation lp = true ↔ lp.1.1 < lp.1.2 ∧ (lp.2 < lp.1.1 ∨ lp.1.2 < lp.2) := by
    intro lp
    simp only [pseudoViolation, Bool.and_eq_true, Bool.not_eq_true',
      Bool.and_eq_false_iff, decide_eq_true_eq, decide_eq_false_iff_not, gt_iff_lt]
    constructor
    · rintro ⟨h1, h2⟩
      exact ⟨h1, by omega⟩
    · rintro ⟨h1, h2⟩
      exact ⟨h1, by omega⟩
  constructor
  · intro hne
    simp [check_value, hne]
  · intro hlen
    have hguard : ¬(pos.length ≠ limits.length) := by omega
    refine ⟨?_, ?_, ?_⟩
    · cases hfind : (limits.zip pos).find? pseudoViolation with
      | some lp =>
        constructor
        · intro _
          exact ⟨lp, List.mem_of_find?_eq_some hfind,
            (hviol lp).mp (List.find?_some hfind)⟩
        · intro _
          exact ⟨lp.1, lp.2, by simp [check_value, hguard, hfind]⟩
      | none =>
        have hnone := List.find?_eq_none.mp hfind
        constructor
        · rintro ⟨l, p, hres⟩
          exfalso
          cases hfs : (realChecks.zip (fwd pos)).findSome? (fun cp => cp.1 cp.2) with
          | some e => simp [check_value, hguard, hfind, hfs] at hres
          | none => simp [check_value, hguard, hfind, hfs] at hres
        · rintro ⟨lp, hmem, hprop⟩
          exact absurd ((hviol lp).mpr hprop) (hnone lp hmem)
    · intro e
      cases hfind : (limits.zip pos).find? pseudoViolation with
      | some lp =>
        constructor
        · intro hres
          exfalso
          simp [check_value, hguard, hfind] at hres
        · rintro ⟨hnoviol, _⟩
          exact absurd ((hviol lp).mp (List.find?_some hfind))
            (hnoviol lp (List.mem_of_find?_eq_some hfind))
      | none =>
        have hnone := List.find?_eq_none.mp hfind
        constructor
        · intro hres
          refine ⟨fun lp hmem hprop => absurd ((hviol lp).mpr hprop) (hnone lp hmem), ?_⟩
          cases hfs : (realChecks.zip (fwd pos)).findSome? (fun cp => cp.1 cp.2) with
          | some e' =>
            simp [check_value, hguard, hfind, hfs] at hres
            simp [hfs, hres]
          | none => simp [check_value, hguard, hfind, hfs] at hres
        · rintro ⟨hnoviol, hfs⟩
          simp [check_value, hguard, hfind, hfs]
    · cases hfind : (limits.zip pos).find? pseudoViolation with
      | some lp =>
        constructor
        · intro hres
          exfalso
          simp [check_value, hguard, hfind] at hres
        · rintro ⟨hnoviol, _⟩
          exact absurd ((hviol lp).mp (List.find?_some hfind))
            (hnoviol lp (List.mem_of_find?_eq_some hfind))
      | none =>
        have hnone := List.find?_eq_none.mp hfind
        constructor
        · intro hres
          refine ⟨fun lp hmem hprop => absurd ((hviol lp).mpr hprop) (hnone lp hmem), ?_⟩
          cases hfs : (realChecks.zip (fwd pos)).findSome? (fun cp => cp.1 cp.2) with
          | some e' =>
            exfalso
            simp [check_value, hguard, hfind, hfs] at hres
          | none =>
            exact fun cp hmem => List.findSome?_eq_none_iff.mp hfs cp hmem
        · rintro ⟨hnoviol, hok⟩
          have hfs : (realChecks.zip (fwd pos)).findSome? (fun cp => cp.1 cp.2) = none :=
            List.findSome?_eq_none_iff.mpr hok
          simp [check_value, hguard, hfind, hfs]

/-- Witness for C6: one bounded pseudo axis with limits `(-1, 5)` and an
identity forward transform; `7` is rejected out-of-range, `2` passes and
reaches the (accepting) real-axis check. -/
theorem check_value_spec_witness :
    (∃ l p, check_value (E := Nat) [((-1 : Int), 5)] (fun p => p)
        [fun _ => none] [7] = .error (.outOfRange l p)) ∧
    check_value (E := Nat) [((-1 : Int), 5)] (fun p => p)
        [fun _ => none] [2] = .ok () := by
  constructor
  · exact (((check_value_spec [((-1 : Int), 5)] (fun p => p)
      [fun _ => none] [7]).2 (by decide)).1).mpr ⟨((-1, 5), 7), by decide, by decide⟩
  · exact (((check_value_spec [((-1 : Int), 5)] (fun p => p)
      [fun _ => none] [2]).2 (by decide)).2.2).mpr
      ⟨by decide, by intro cp hmem; simp at hmem; simp [hmem]⟩

/-! ## Real-Axis Position Cache, `position` and readback updates

The cache `_real_cur_pos` maps each real axis, in declared order, to its
last observed scalar or `none` ("unknown").  The subclass inverse
transform `inv` is a function of the real-position record — whose slots,
as handed over by the code, may still be unknown.
-/

/-- Embedding of the `real_position` property (pseudopos.py lines
572-575): the cached values, in declared real-axis order. -/
def real_position (cache : List (Option Int)) : List (Option Int) :=
  cache

/-- Embedding of the `position` property (pseudopos.py lines 567-570):
`self.inverse(self.real_position)`, applied directly to the cached
real position — the code contains no guard against unknown entries. -/
def position (inv : List (Option Int) → List Int)
    (cache : List (Option Int)) : List Int :=
  inv (real_position cache)

/-- Embedding of `_update_position` (pseudopos.py lines 577-585): raise
`DisconnectedError` (modelled as `.error ()`) when any cache entry is
unknown, else return the pseudo position computed via `inverse`. -/
def update_position (inv : List (Option Int) → List Int)
    (cache : List (Option Int)) : Except Unit (List Int) :=
  if none ∈ real_position cache then .error ()
  else .ok (inv (real_position cache))

/-- Counterexample to claim C2: the `position` property does not fail
with a disconnected condition on a partially populated cache — it hands
the cache, unknown entries included, straight to the subclass inverse.
With the inverse that reads unknown slots as `0`, a cache whose second
axis has never reported yields the pseudo position `[3, 0]`. -/
theorem position_partial_cache_counterexample :
    none ∈ ([some 3, none] : List (Option Int)) ∧
    position (fun c => c.map (fun o => o.getD 0)) [some 3, none] = [3, 0] := by
  constructor
  · decide
  · rfl

/-- Claim C2 as amended: the disconnected guard lives in
`_update_position` (the readback-update path), not in the `position`
property: `_update_position` fails with the disconnected condition
exactly when some cache entry is unknown, and on a fully populated
cache it returns exactly what `position` computes; `position` itself
applies the inverse unconditionally. -/
theorem position_disconnected_amended (inv : List (Option Int) → List Int)
    (cache : List (Option Int)) :
    (update_position inv cache = .error () ↔ none ∈ cache) ∧
    (none ∉ cache → update_position inv cache = .ok (position inv cache)) := by
  constructor
  · constructor
    · intro h
      by_contra hmem
      simp [update_position, real_position, hmem] at h
    · intro h
      simp [update_position, real_position, h]
  · intro h
    simp [update_position, real_position, position, h]

/-- Witness for the amended C2 on concrete caches: a fully populated
cache yields the unguarded `position` value, an incomplete one the
disconnected failure. -/
theorem position_disconnected_amended_witness :
    update_position (fun c => c.map (fun o => o.getD 0)) [some 1, some 2] =
      .ok (position (fun c => c.map (fun o => o.getD 0)) [some 1, some 2]) ∧
    (update_position (fun c => c.map (fun o => o.getD 0)) [some 3, none] =
      .error () ↔ none ∈ ([some 3, none] : List (Option Int))) :=
  ⟨(position_disconnected_amended (fun c => c.map (fun o => o.getD 0))
      [some 1, some 2]).2 (by decide),
   (position_disconnected_amended (fun c => c.map (fun o => o.getD 0))
      [some 3, none]).1⟩

/-- State threaded through readback updates: the cache plus the
readback-changed events published so far (each carrying a full pseudo
position). -/
structure UpdState where
  cache : List (Option Int)
  published : List (List Int)
  deriving DecidableEq

/-- Embedding of the `_real_pos_update` callback (pseudopos.py lines
587-595): store the reporting axis's new scalar, then try
`_update_position`, silently suppressing the disconnected failure.
Modelled from the spec: `_set_position` (defined in the positioner base
class, not among these sources) publishes the computed pseudo position
as a readback-changed event; `published` records those events. -/
def real_pos_update (inv : List (Option Int) → List Int) (s : UpdState)
    (i : Nat) (v : Int) : UpdState :=
  let cache := s.cache.set i (some v)
  match update_position inv cache with
  | .ok p => { cache := cache, published := s.published ++ [p] }
  | .error _ => { cache := cache, published := s.published }

/-- Claim C7: a readback update stores the reporting axis's scalar and
publishes a readback-changed event — carrying the full pseudo position
computed by the inverse transform — exactly when the update leaves the
cache fully populated; while any entry is still unknown it publishes
nothing. -/
theorem real_pos_update_publish (inv : List (Option Int) → List Int)
    (s : UpdState) (i : Nat) (v : Int) :
    (real_pos_update inv s i v).cache = s.cache.set i (some v) ∧
    (real_pos_update inv s i v).published =
      (if none ∈ s.cache.set i (some v) then s.published
       else s.published ++ [inv (s.cache.set i (some v))]) := by
  by_cases h : none ∈ s.cache.set i (some v) <;>
    simp [real_pos_update, update_position, real_position, h]

/-! ## Concurrent group moves: `_concurrent_move` / `_real_finished`

A concurrent group move populates the Waiting Set `_real_waiting` with
every real axis and dispatches all moves; each axis's completion
callback `_real_finished` then removes it from the set under the
finished lock (callbacks arrive serially under `_finished_lock`, so the
run is a fold over the arrival order).  Axes are values of a type `A`
with decidable equality.
-/

/-- State of one in-flight concurrent group move: the Waiting Set
`_real_waiting` and the group's terminal completion — `none` while the
move is in flight, `some b` once `_done_moving(success=b)` has run. -/
structure ConcState (A : Type) where
  real_waiting : List A
  result : Option Bool
  deriving DecidableEq

/-- Embedding of `_concurrent_move` (pseudopos.py lines 694-701): the
Waiting Set holds every real axis, all moves dispatched, completion
pending. -/
def concurrent_move {A : Type} (reals : List A) : ConcState A :=
  ⟨reals, none⟩

/-- Embedding of the `_real_finished` completion callback (pseudopos.py
lines 602-616) for axis `a`: remove the axis from the Waiting Set and,
once the set empties, run `_done_moving()` — whose `success` parameter
defaults to `True`.  `ok` is the success flag with which axis `a`'s
move completed; the handler receives only the axis (`obj`) and ignores
the flag. -/
def real_finished {A : Type} [DecidableEq A] (s : ConcState A) (a : A)
    (_ok : Bool) : ConcState A :=
  if a ∈ s.real_waiting then
    let w := s.real_waiting.erase a
    if w.isEmpty then { real_waiting := w, result := some true }
    else { real_waiting := w, result := s.result }
  else s

/-- Process the completion events of a concurrent group move in arrival
order, starting from the freshly dispatched state. -/
def run_concurrent {A : Type} [DecidableEq A] (reals : List A)
    (evs : List (A × Bool)) : ConcState A :=
  evs.foldl (fun s e => real_finished s e.1 e.2) (concurrent_move reals)

/-- Counterexample to claim C1: with two real axes where axis `0`'s
move completes unsuccessfully and axis `1`'s successfully, the group's
terminal completion is raised as success — the failure is not recorded
or propagated, because `_real_finished` ignores the per-axis outcome
and `_done_moving()` defaults to `success=True`. -/
theorem concurrent_failure_lost_counterexample :
    (run_concurrent [0, 1] [(0, false), (1, true)]).result = some true := by
  decide

/-- Folding `_real_finished` over completion events: the Waiting Set
keeps exactly the axes not yet heard from, and the terminal completion
has fired (always as success) exactly when a nonempty Waiting Set has
been drained. -/
theorem run_concurrent_aux {A : Type} [DecidableEq A]
    (evs : List (A × Bool)) (s : ConcState A) (hnd : s.real_waiting.Nodup) :
    (evs.foldl (fun s e => real_finished s e.1 e.2) s).real_waiting =
      s.real_waiting.filter (fun a => decide (a ∉ evs.map Prod.fst)) ∧
    (evs.foldl (fun s e => real_finished s e.1 e.2) s).result =
      (if s.real_waiting ≠ [] ∧
          s.real_waiting.filter (fun a => decide (a ∉ evs.map Prod.fst)) = []
       then some true else s.result) := by
  induction evs generalizing s with
  | nil =>
    constructor
    · simp
    · rcases eq_or_ne s.real_waiting [] with h | h <;> simp [h]
  | cons e rest ih =>
    obtain ⟨a, ok⟩ := e
    simp only [List.foldl_cons, List.map_cons]
    have hfilter : ∀ w : List A, w.Nodup →
        w.filter (fun x => decide (x ∉ a :: rest.map Prod.fst)) =
          (w.erase a).filter (fun x => decide (x ∉ rest.map Prod.fst)) := by
      intro w hw
      rw [hw.erase_eq_filter, List.filter_filter]
      apply List.filter_congr
      intro x _
      by_cases hxa : x = a
      · subst hxa
        simp
      · simp [List.mem_cons, hxa]
    by_cases hmem : a ∈ s.real_waiting
    · have hne : s.real_waiting ≠ [] := List.ne_nil_of_mem hmem
      by_cases hemp : (s.real_waiting.erase a).isEmpty
      · have herase : s.real_waiting.erase a = [] := List.isEmpty_iff.mp hemp
        have hstep : real_finished s a ok = ⟨[], some true⟩ := by
          simp [real_finished, hmem, herase]
        rw [hstep]
        obtain ⟨ihw, ihr⟩ := ih ⟨[], some true⟩ List.nodup_nil
        have hcond : s.real_waiting.filter
            (fun x => decide (x ∉ a :: rest.map Prod.fst)) = [] := by
          rw [hfilter s.real_waiting hnd, herase]
          rfl
        constructor
        · rw [ihw, hfilter s.real_waiting hnd, herase]
        · rw [ihr, if_neg (fun h => h.1 rfl), if_pos ⟨hne, hcond⟩]
      · have herase : s.real_waiting.erase a ≠ [] := by
          intro h
          rw [h] at hemp
          simp at hemp
        have hstep : real_finished s a ok =
            ⟨s.real_waiting.erase a, s.result⟩ := by
          have h' : (s.real_waiting.erase a).isEmpty = false := by
            simpa using hemp
          simp [real_finished, hmem, h']
        rw [hstep]
        obtain ⟨ihw, ihr⟩ := ih ⟨s.real_waiting.erase a, s.result⟩ (hnd.erase a)
        constructor
        · rw [ihw, hfilter s.real_waiting hnd]
        · rw [ihr]
          by_cases hdone : (s.real_waiting.erase a).filter
              (fun x => decide (x ∉ rest.map Prod.fst)) = []
          · have hcond : s.real_waiting.filter
                (fun x => decide (x ∉ a :: rest.map Prod.fst)) = [] := by
              rw [hfilter s.real_waiting hnd]
              exact hdone
            rw [if_pos ⟨herase, hdone⟩, if_pos ⟨hne, hcond⟩]
          · have hcond : ¬ s.real_waiting.filter
                (fun x => decide (x ∉ a :: rest.map Prod.fst)) = [] := by
              rw [hfilter s.real_waiting hnd]
              exact hdone
            rw [if_neg (fun h => hdone h.2), if_neg (fun h => hcond h.2)]
    · have hstep : real_finished s a ok = s := by
        simp [real_finished, hmem]
      rw [hstep]
      obtain ⟨ihw, ihr⟩ := ih s hnd
      have hsame : s.real_waiting.filter (fun x => decide (x ∉ rest.map Prod.fst)) =
          s.real_waiting.filter (fun x => decide (x ∉ a :: rest.map Prod.fst)) := by
        apply List.filter_congr
        intro x hx
        have hxa : x ≠ a := fun h => hmem (h ▸ hx)
        simp [List.mem_cons, not_or, hxa]
      constructor
      · rw [ihw, hsame]
      · rw [ihr]
        by_cases hdone : s.real_waiting.filter
            (fun x => decide (x ∉ rest.map Prod.fst)) = []
        · have hcond : s.real_waiting.filter
              (fun x => decide (x ∉ a :: rest.map Prod.fst)) = [] := by
            rw [← hsame]
            exact hdone
          by_cases hw : s.real_waiting = []
          · rw [if_neg (fun h => h.1 hw), if_neg (fun h => h.1 hw)]
          · rw [if_pos ⟨hw, hdone⟩, if_pos ⟨hw, hcond⟩]
        · have hcond : ¬ s.real_waiting.filter
              (fun x => decide (x ∉ a :: rest.map Prod.fst)) = [] := by
            rw [← hsame]
            exact hdone
          rw [if_neg (fun h => hdone h.2), if_neg (fun h => hcond h.2)]

/-- Claim C1 as amended: in a concurrent group move the terminal
completion is raised exactly when the Waiting Set becomes empty — only
after every real axis's completion callback has been processed,
regardless of arrival order — but it is then always raised as success
(`_done_moving()` with the default `success=True`): a failed axis is
removed from the Waiting Set like any other, and its failure is neither
recorded nor propagated. -/
theorem concurrent_terminal_on_empty {A : Type} [DecidableEq A]
    (reals : List A) (evs : List (A × Bool))
    (hnd : reals.Nodup) (hne : reals ≠ []) :
    (run_concurrent reals evs).result ≠ some false ∧
    ((run_concurrent reals evs).result = some true ↔
      ∀ a ∈ reals, a ∈ evs.map Prod.fst) := by
  obtain ⟨-, hres⟩ := run_concurrent_aux evs (concurrent_move reals) hnd
  have hfilt : reals.filter (fun a => decide (a ∉ evs.map Prod.fst)) = [] ↔
      ∀ a ∈ reals, a ∈ evs.map Prod.fst := by
    rw [List.filter_eq_nil_iff]
    constructor
    · intro h a ha
      by_contra hnot
      exact h a ha (decide_eq_true hnot)
    · intro h a ha hdec
      exact (of_decide_eq_true hdec) (h a ha)
  have hres2 : (run_concurrent reals evs).result =
      (if reals ≠ [] ∧
          reals.filter (fun a => decide (a ∉ evs.map Prod.fst)) = []
       then some true else none) := by
    simpa [run_concurrent, concurrent_move] using hres
  constructor
  · rw [hres2]
    by_cases hc : reals ≠ [] ∧
        reals.filter (fun a => decide (a ∉ evs.map Prod.fst)) = []
    · rw [if_pos hc]
      simp
    · rw [if_neg hc]
      simp
  · rw [hres2]
    by_cases hc : reals.filter (fun a => decide (a ∉ evs.map Prod.fst)) = []
    · rw [if_pos ⟨hne, hc⟩]
      exact iff_of_true rfl (hfilt.mp hc)
    · rw [if_neg (fun h => hc h.2)]
      exact iff_of_false (by simp) (fun h => hc (hfilt.mpr h))

/-- Witness for the amended C1: both axes' completions processed (one
of them a failure) fires the terminal completion, as success; with one
completion still missing it has not fired. -/
theorem concurrent_terminal_on_empty_witness :
    (run_concurrent [0, 1] [(0, false), (1, true)]).result ≠ some false ∧
    ((run_concurrent [0, 1] [(0, false), (1, true)]).result = some true ↔
      ∀ a ∈ [0, 1], a ∈ [(0, false), (1, true)].map Prod.fst) :=
  concurrent_terminal_on_empty [0, 1] [(0, false), (1, true)]
    (by decide) (by decide)

/-! ## Sequential group moves: `_sequential_move`

`_sequential_move` fills the Move Queue with `(real axis, target)`
pairs in declared order and calls `move_next()`.  Each completed move
re-invokes `move_next` as its completion callback: if the last
dispatched status reports failure, the group finishes as failure;
otherwise the next pair is popped; an empty queue finishes the group as
success; the popped pair is dispatched with the remaining timeout
budget `timeout - elapsed` unless that budget is negative, in which
case the group finishes as failure with no dispatch.

The run is modelled as the synchronous chain where each dispatched move
completes (with the axis's success flag) before the next callback.
`outcome i = (ok, dur)` gives the success flag and the wall-clock time
consumed by the move of the axis at queue position of index `i`;
`now` is the time elapsed since `t0`.  The result collects the log of
dispatched moves `(axis, target, handed timeout)` and the terminal
completion flag.
-/

/-- Embedding of the `move_next` chain of `_sequential_move`
(pseudopos.py lines 644-692), started at elapsed time `now` with the
given remaining Move Queue.  An empty queue finishes as success; with a
total timeout `t`, `sub_timeout = t - elapsed` and the guard
`sub_timeout is not None and sub_timeout < 0` finishes as failure
without dispatching; otherwise the head pair is dispatched with
`sub_timeout` and, on success of that move, the chain continues — on
failure the next callback finishes the group as failure. -/
def seqGo (outcome : Nat → Bool × Int) :
    Option Int → List (Nat × Int) → Int → List (Nat × Int × Option Int) × Bool
  | _, [], _ => ([], true)
  | some t, (i, v) :: rest, now =>
    if t - now < 0 then ([], false)
    else
      let next := if (outcome i).1 then
          seqGo outcome (some t) rest (now + (outcome i).2)
        else ([], false)
      ((i, v, some (t - now)) :: next.1, next.2)
  | none, (i, v) :: rest, now =>
    let next := if (outcome i).1 then
        seqGo outcome none rest (now + (outcome i).2)
      else ([], false)
    ((i, v, none) :: next.1, next.2)

/-- Embedding of `_sequential_move` itself: the Move Queue is
`(real axis, target)` in declared order (`zip(self._real, real_pos)`),
`t0` is the start time, and `move_next()` is called with an empty
pending-status list. -/
def sequential_move (outcome : Nat → Bool × Int) (tout : Option Int)
    (queue : List (Nat × Int)) : List (Nat × Int × Option Int) × Bool :=
  seqGo outcome tout queue 0

/-- Claim C3: with no timeout, the sequential chain dispatches the
queue strictly in declared order up to and including the first axis
whose move fails — nothing after it is dispatched — and the terminal
completion is success exactly when every axis's move succeeds. -/
theorem sequential_order_and_failure (outcome : Nat → Bool × Int)
    (queue : List (Nat × Int)) :
    sequential_move outcome none queue =
      ((queue.takeWhile (fun p => (outcome p.1).1)).map (fun p => (p.1, p.2, none)) ++
        ((queue.dropWhile (fun p => (outcome p.1).1)).take 1).map
          (fun p => (p.1, p.2, (none : Option Int))),
       queue.all (fun p => (outcome p.1).1)) := by
  rw [sequential_move]
  have main : ∀ (q : List (Nat × Int)) (now : Int),
      seqGo outcome none q now =
        ((q.takeWhile (fun p => (outcome p.1).1)).map (fun p => (p.1, p.2, none)) ++
          ((q.dropWhile (fun p => (outcome p.1).1)).take 1).map
            (fun p => (p.1, p.2, (none : Option Int))),
         q.all (fun p => (outcome p.1).1)) := by
    intro q
    induction q with
    | nil => intro now; rfl
    | cons p rest ih =>
      intro now
      obtain ⟨i, v⟩ := p
      cases hok : (outcome i).1 with
      | true =>
        rw [seqGo]
        simp only [hok, if_true]
        rw [ih (now + (outcome i).2)]
        simp [List.takeWhile_cons, List.dropWhile_cons, hok]
      | false =>
        rw [seqGo]
        simp [List.takeWhile_cons, List.dropWhile_cons, hok]
  exact main queue 0

/-- Elapsed wall-clock time when the queue entry at position `n` is
reached: the durations of the moves dispatched before it. -/
def elapsedBefore (outcome : Nat → Bool × Int) (queue : List (Nat × Int))
    (n : Nat) : Int :=
  ((queue.take n).map (fun p => (outcome p.1).2)).sum

/-- Each entry of the dispatch log of a timed sequential run is the
corresponding queue entry, handed the remaining budget
`tval - elapsed` at the moment it was dispatched. -/
theorem seqGo_dispatch_budget (outcome : Nat → Bool × Int) (tval : Int) :
    ∀ (queue : List (Nat × Int)) (now : Int) (n : Nat),
      n < (seqGo outcome (some tval) queue now).1.length →
      (seqGo outcome (some tval) queue now).1.get? n =
        (queue.get? n).map (fun p =>
          (p.1, p.2,
            some (tval - (now + ((queue.take n).map (fun q => (outcome q.1).2)).sum)))) := by
  intro queue
  induction queue with
  | nil =>
    intro now n hn
    simp [seqGo] at hn
  | cons p rest ih =>
    intro now n hn
    obtain ⟨i, v⟩ := p
    by_cases htime : tval - now < 0
    · rw [seqGo, if_pos htime] at hn
      simp at hn
    · rw [seqGo, if_neg htime] at hn ⊢
      cases n with
      | zero =>
        simp
      | succ n =>
        cases hok : (outcome i).1 with
        | false =>
          simp only [hok, if_false] at hn
          simp at hn
        | true =>
          simp only [hok, if_true] at hn ⊢
          simp only [List.length_cons, Nat.succ_lt_succ_iff] at hn
          simp only [List.get?_cons_succ, List.take_succ_cons, List.map_cons,
            List.sum_cons]
          rw [ih (now + (outcome i).2) n hn]
          simp only [add_assoc]

/-- A step reached with its remaining budget already negative — all
earlier steps having succeeded — is not dispatched: the log stops
before it and the run finishes as failure. -/
theorem seqGo_budget_exhausted (outcome : Nat → Bool × Int) (tval : Int) :
    ∀ (queue : List (Nat × Int)) (now : Int) (n : Nat),
      n < queue.length →
      (∀ m, m < n → (outcome (((queue.get? m).getD (0, 0)).1)).1 = true) →
      tval - (now + ((queue.take n).map (fun q => (outcome q.1).2)).sum) < 0 →
      (seqGo outcome (some tval) queue now).1.length ≤ n ∧
      (seqGo outcome (some tval) queue now).2 = false := by
  intro queue
  induction queue with
  | nil =>
    intro now n hn _ _
    simp at hn
  | cons p rest ih =>
    intro now n hn hprev hbud
    obtain ⟨i, v⟩ := p
    by_cases htime : tval - now < 0
    · rw [seqGo, if_pos htime]
      exact ⟨Nat.zero_le n, rfl⟩
    · cases n with
      | zero =>
        exfalso
        simp only [List.take_zero, List.map_nil, List.sum_nil, add_zero] at hbud
        exact htime hbud
      | succ n =>
        have hok : (outcome i).1 = true := by
          have h0 := hprev 0 (Nat.succ_pos n)
          simpa using h0
        rw [seqGo, if_neg htime]
        simp only [hok, if_true]
        simp only [List.take_succ_cons, List.map_cons, List.sum_cons] at hbud
        have hbud' : tval - ((now + (outcome i).2) +
            ((rest.take n).map (fun q => (outcome q.1).2)).sum) < 0 := by
          have harr : now + ((outcome i).2 +
              ((rest.take n).map (fun q => (outcome q.1).2)).sum) =
              (now + (outcome i).2) +
              ((rest.take n).map (fun q => (outcome q.1).2)).sum := by ring
          rw [← harr]
          exact hbud
        obtain ⟨hlen, hres⟩ := ih (now + (outcome i).2) n
          (by simpa using hn)
          (fun m hm => by
            have hm1 := hprev (m + 1) (Nat.succ_lt_succ hm)
            simpa using hm1)
          hbud'
        exact ⟨by simpa using Nat.succ_le_succ hlen, hres⟩

/-- Claim C4: in sequential mode with group timeout `tval`, every
dispatched step is handed `tval` minus the wall-clock time elapsed
since the group move started (the remaining budget from the original
total), and a step reached with negative remaining budget is not
dispatched at all — the run terminates as failure instead. -/
theorem sequential_timeout_budget (outcome : Nat → Bool × Int) (tval : Int)
    (queue : List (Nat × Int)) (n : Nat) :
    (n < (sequential_move outcome (some tval) queue).1.length →
      (sequential_move outcome (some tval) queue).1.get? n =
        (queue.get? n).map (fun p =>
          (p.1, p.2, some (tval - elapsedBefore outcome queue n)))) ∧
    (n < queue.length →
      (∀ m, m < n → (outcome (((queue.get? m).getD (0, 0)).1)).1 = true) →
      tval - elapsedBefore outcome queue n < 0 →
      (sequential_move outcome (some tval) queue).1.length ≤ n ∧
      (sequential_move outcome (some tval) queue).2 = false) := by
  constructor
  · intro hn
    rw [sequential_move] at hn ⊢
    rw [seqGo_dispatch_budget outcome tval queue 0 n hn]
    simp [elapsedBefore]
  · intro hn hprev hbud
    rw [sequential_move]
    exact seqGo_budget_exhausted outcome tval queue 0 n hn hprev
      (by simpa [elapsedBefore] using hbud)

/-- Witness for C4 on a two-step queue with total budget `5`: the first
step is dispatched with the full budget `5`; the second step, reached
after the first consumed `7`, has negative remaining budget, is never
dispatched, and the run fails. -/
theorem sequential_timeout_budget_witness :
    ((sequential_move (fun i => (true, if i = 0 then (7 : Int) else 1))
        (some 5) [(0, 10), (1, 20)]).1.get? 0 =
      ((([(0, 10), (1, 20)] : List (Nat × Int)).get? 0).map (fun p =>
        (p.1, p.2, some ((5 : Int) - elapsedBefore
          (fun i => (true, if i = 0 then (7 : Int) else 1)) [(0, 10), (1, 20)] 0))))) ∧
    ((sequential_move (fun i => (true, if i = 0 then (7 : Int) else 1))
        (some 5) [(0, 10), (1, 20)]).1.length ≤ 1 ∧
      (sequential_move (fun i => (true, if i = 0 then (7 : Int) else 1))
        (some 5) [(0, 10), (1, 20)]).2 = false) :=
  ⟨(sequential_timeout_budget (fun i => (true, if i = 0 then (7 : Int) else 1))
      5 [(0, 10), (1, 20)] 0).1 (by decide),
   (sequential_timeout_budget (fun i => (true, if i = 0 then (7 : Int) else 1))
      5 [(0, 10), (1, 20)] 1).2 (by decide) (by decide) (by decide)⟩

/-! ## `PseudoPositioner.stop` and in-flight sequential moves

For the interaction between `stop()` and a later-arriving completion,
the sequential machinery is viewed one event at a time: `MState` holds
the orchestrator's Move Queue, the log of dispatched moves and the
terminal completion, and `onComplete` is one invocation of `move_next`
by a real-axis completion callback (the `timeout=None` instance of the
chain embedded in `seqGo`).
-/

/-- Orchestrator state between sequential-move events. -/
structure MState (A : Type) where
  move_queue : List (A × Int)
  dispatched : List (A × Int)
  result : Option Bool

/-- One invocation of `move_next` (pseudopos.py lines 650-689) from the
completion callback of the last dispatched move, which finished with
success flag `ok`: a failed last status finishes the group as failure;
otherwise the next queued pair is popped and dispatched, and an
exhausted queue finishes the group as success. -/
def onComplete {A : Type} (s : MState A) (ok : Bool) : MState A :=
  if !ok then { s with result := some false }
  else
    match s.move_queue with
    | [] => { s with result := some true }
    | p :: rest =>
      { move_queue := rest, dispatched := s.dispatched ++ [p], result := s.result }

/-- The per-axis loop of `stop` (pseudopos.py lines 470-475):
`pos.stop()` on every real axis inside `try/except`, recording (as a
log) each axis whose stop raised, and continuing with the remaining
axes. -/
def stopLoop {A : Type} (stopAx : A → Except Unit Unit) : List A → List A
  | [] => []
  | a :: rest =>
    match stopAx a with
    | .ok _ => stopLoop stopAx rest
    | .error _ => a :: stopLoop stopAx rest

/-- What `stop` returns to its caller: the orchestrator state, the
axes whose individual stop failed (logged, not propagated — the
function is total), and whether the group's own stop bookkeeping
(`super().stop()`, modelled from the spec: it lives in the positioner
base class, outside these sources) ran. -/
structure StopOutcome (A : Type) where
  state : MState A
  failures : List A
  bookkeeping : Bool

/-- Embedding of `PseudoPositioner.stop` (pseudopos.py lines 467-477):
discard the Move Queue first, then attempt `stop()` on every real axis
with failures logged, then run the group's own stop bookkeeping. -/
def stop {A : Type} (stopAx : A → Except Unit Unit) (reals : List A)
    (s : MState A) : StopOutcome A :=
  let s1 : MState A := { s with move_queue := [] }
  { state := s1, failures := stopLoop stopAx reals, bookkeeping := true }

/-- Has an individual axis's `stop()` raised? -/
def stopFailed : Except Unit Unit → Bool
  | .ok _ => false
  | .error _ => true

/-- The stop loop visits every axis: failures are exactly the axes
whose stop raised, in order, and the loop never short-circuits. -/
theorem stopLoop_eq_filter {A : Type} (stopAx : A → Except Unit Unit)
    (reals : List A) :
    stopLoop stopAx reals = reals.filter (fun a => stopFailed (stopAx a)) := by
  induction reals with
  | nil => rfl
  | cons a rest ih =>
    cases h : stopAx a with
    | ok u =>
      rw [stopLoop, h]
      simp [List.filter_cons, h, stopFailed, ih]
    | error e =>
      rw [stopLoop, h]
      simp [List.filter_cons, h, stopFailed, ih]

/-- Claim C8: `stop()` discards the Move Queue, so a completion
arriving after it returns dispatches no further queued step whatever
the completion's outcome; stop is attempted on every real axis with
individual failures recorded but never propagated; and the group's own
stop bookkeeping runs. -/
theorem stop_discards_queue {A : Type} (stopAx : A → Except Unit Unit)
    (reals : List A) (s : MState A) (ok : Bool) :
    (stop stopAx reals s).state.move_queue = [] ∧
    (onComplete (stop stopAx reals s).state ok).dispatched =
      (stop stopAx reals s).state.dispatched ∧
    (stop stopAx reals s).failures =
      reals.filter (fun a => stopFailed (stopAx a)) ∧
    (stop stopAx reals s).bookkeeping = true := by
  refine ⟨rfl, ?_, stopLoop_eq_filter stopAx reals, rfl⟩
  cases ok <;> simp [stop, onComplete]

/-! ## Single-axis moves: `PseudoSingle.move` / `PseudoPositioner.move_single`

A `PseudoSingle` carries its last commanded target `_target` (`none`
after `sync()`) and, through its parent, a current readback scalar.
-/

/-- One pseudo axis: its commanded target `_target` and its current
readback (`self.position`, the parent's current pseudo position at this
axis's index — abstracted to a scalar field). -/
structure PseudoSingle where
  cmd : Option Int
  readback : Int
  deriving DecidableEq

/-- Embedding of the `PseudoSingle.target` property (pseudopos.py lines
90-96): the last commanded target, falling back to the current readback
when none has been commanded. -/
def PseudoSingle.target (s : PseudoSingle) : Int :=
  match s.cmd with
  | none => s.readback
  | some t => t

/-- Embedding of `PseudoSingle.sync` (pseudopos.py lines 98-100): clear
the commanded target. -/
def PseudoSingle.sync (s : PseudoSingle) : PseudoSingle :=
  { s with cmd := none }

/-- Embedding of the `PseudoPositioner.target` property (pseudopos.py
lines 639-642): every pseudo axis's `target` in declared order. -/
def group_target (axes : List PseudoSingle) : List Int :=
  axes.map PseudoSingle.target

/-- Embedding of `PseudoPositioner.move_single` (pseudopos.py lines
618-637): take the group's current target record, substitute `pos` at
the moved axis's index, and issue a group move with the result — which
this model returns. -/
def move_single (axes : List PseudoSingle) (idx : Nat) (pos : Int) : List Int :=
  (group_target axes).set idx pos

/-- Embedding of `PseudoSingle.move` (pseudopos.py lines 144-157):
record `pos` as this axis's commanded target, then delegate to the
parent's `move_single`.  Returns the updated axes and the pseudo
position issued to the group move. -/
def PseudoSingle.move (axes : List PseudoSingle) (idx : Nat) (pos : Int) :
    List PseudoSingle × List Int :=
  let axes' := List.modify (fun a => { a with cmd := some pos }) idx axes
  (axes', move_single axes' idx pos)

/-- Claim C9: the group move issued by a single-axis move carries the
group's per-axis target record — last commanded target, falling back to
readback — with the new scalar substituted at the moved axis's slot;
this holds for `move_single` directly and through `PseudoSingle.move`,
whose prior recording of the commanded target does not disturb the
other slots. -/
theorem move_single_issues_target_record (axes : List PseudoSingle)
    (idx : Nat) (pos : Int) :
    (PseudoSingle.move axes idx pos).2 =
      (axes.map PseudoSingle.target).set idx pos ∧
    move_single axes idx pos = (axes.map PseudoSingle.target).set idx pos := by
  refine ⟨?_, rfl⟩
  show ((List.modify (fun a => { a with cmd := some pos }) idx axes).map
      PseudoSingle.target).set idx pos = (axes.map PseudoSingle.target).set idx pos
  apply List.ext_getElem?
  intro j
  by_cases hj : idx = j
  · subst hj
    rw [List.getElem?_set', if_pos rfl, List.getElem?_set', if_pos rfl]
    cases haxes : axes[idx]? with
    | none =>
      have hmod : (List.modify (fun a => { a with cmd := some pos }) idx axes)[idx]? =
          none := by
        rw [List.getElem?_modify_eq, haxes]
        rfl
      simp [hmod, haxes]
    | some a =>
      have hmod : (List.modify (fun a => { a with cmd := some pos }) idx axes)[idx]? =
          some { a with cmd := some pos } := by
        rw [List.getElem?_modify_eq, haxes]
        rfl
      simp [hmod, haxes]
  · rw [List.getElem?_set', if_neg hj, List.getElem?_set', if_neg hj]
    simp [List.getElem?_modify_ne _ axes hj]

/-- The validated single-axis move path.  Modelled from the spec: the
base positioner's `move` (outside these sources) validates the full
pseudo position via `check_value` before any motion and raises on an
invalid position; `check` abstracts that validation, and the issued
move fails (`.error ()`) when it rejects the position.
`PseudoSingle.move` has already recorded the commanded target by then. -/
def PseudoSingle.moveChecked (check : List Int → Bool)
    (axes : List PseudoSingle) (idx : Nat) (pos : Int) :
    List PseudoSingle × Except Unit Unit :=
  let r := PseudoSingle.move axes idx pos
  (r.1, if check r.2 then .ok () else .error ())

/-- Claim C10: when the group move raises (here: validation rejects the
position), the moved axis's commanded target keeps the rejected value —
its `target` still answers `pos` — and only `sync()` restores the
readback-based answer. -/
theorem target_not_rolled_back (check : List Int → Bool)
    (axes : List PseudoSingle) (idx : Nat) (pos : Int)
    (hidx : idx < axes.length)
    (_herr : (PseudoSingle.moveChecked check axes idx pos).2 = .error ()) :
    ((PseudoSingle.moveChecked check axes idx pos).1.map
      PseudoSingle.target)[idx]? = some pos ∧
    ((List.modify PseudoSingle.sync idx
        (PseudoSingle.moveChecked check axes idx pos).1).map
      PseudoSingle.target)[idx]? =
      (axes.map PseudoSingle.readback)[idx]? := by
  obtain ⟨a, haxes⟩ : ∃ a, axes[idx]? = some a := by
    rw [List.getElem?_eq_getElem hidx]
    exact ⟨_, rfl⟩
  have hstate : (PseudoSingle.moveChecked check axes idx pos).1 =
      List.modify (fun a => { a with cmd := some pos }) idx axes := rfl
  constructor
  · rw [hstate]
    rw [List.getElem?_map, List.getElem?_modify_eq, haxes]
    rfl
  · rw [hstate]
    rw [List.getElem?_map, List.getElem?_modify_eq, List.getElem?_modify_eq, haxes]
    rw [List.getElem?_map, haxes]
    rfl

/-- Witness for C10: one axis with readback `5` and no commanded
target; a validator that rejects everything still leaves the rejected
target `7` in place, and `sync()` restores the readback `5`. -/
theorem target_not_rolled_back_witness :
    ((PseudoSingle.moveChecked (fun _ => false) [⟨none, 5⟩] 0 7).1.map
      PseudoSingle.target)[0]? = some 7 ∧
    ((List.modify PseudoSingle.sync 0
        (PseudoSingle.moveChecked (fun _ => false) [⟨none, 5⟩] 0 7).1).map
      PseudoSingle.target)[0]? =
      (([⟨none, 5⟩] : List PseudoSingle).map PseudoSingle.readback)[0]? :=
  target_not_rolled_back (fun _ => false) [⟨none, 5⟩] 0 7 (by decide) rfl

end Ophyd
